import Mathlib

/-!
Verification of the `enhancedminmax` comparison utilities (`src/minmax.h`,
`src/minmax.cpp`).

The C++ code is shallowly embedded as follows.  A C++ integral value is a
`CInt`: its byte width `w`, its signedness flag `sgn` (`true` = signed), and
its mathematical value `v`.  Machine conversions are explicit arithmetic:
conversion to an unsigned type of width `w` is reduction modulo `2^(8*w)`,
conversion to a signed type is the two's-complement reinterpretation (the
code relies on that behaviour, e.g. in `signed_in_unsigned_value::getOriginal`).
Arguments are modelled as prvalues (decayed template parameters), which is the
situation exercised by the repository's own `static_assert` test-suite.

`find_lowest`'s result is either a plain typed value or a
`signed_in_unsigned_value` (constructor `FLRes.tagged`), mirroring the header.
A C++ `static_assert` failure inside a taken `constexpr` branch (the
`is_unsigned` asserts on the ternary's common type) means the call does not
compile; this is modelled by the result `none`.
-/

/-- A C++ integral value: byte width, signedness (`true` = signed) and its
mathematical value. -/
structure CInt where
  w : Nat
  sgn : Bool
  v : Int
deriving DecidableEq

/-- Number of value bits of a type of byte width `w`. -/
def bits (w : Nat) : Nat := 8 * w

/-- C++ conversion of an integer value to an unsigned type of byte width `w`:
reduction modulo `2^(8*w)` (the result lies in `[0, 2^(8*w))`). -/
def toUnsigned (w : Nat) (v : Int) : Int := v % ((2 : Int) ^ bits w)

/-- C++ reinterpretation of a value as a signed type of byte width `w`
(two's complement, as `static_cast<originalType>(value)` behaves in the
repository's constant-evaluated tests). -/
def toSigned (w : Nat) (v : Int) : Int :=
  let u := toUnsigned w v
  if u < (2 : Int) ^ (bits w - 1) then u else u - (2 : Int) ^ bits w

/-- `highest_unsigned_type` of `minmax.h`: the byte width of the unsigned
type chosen for a mixed comparison — the wider of the two operand types
(`sizeof(L) >= sizeof(R)` picks `L`, otherwise `R`); the type is unsigned. -/
def highest_unsigned_type_w (lw rw : Nat) : Nat :=
  if rw ≤ lw then lw else rw

/-- `lower_than` of `minmax.h`, on integral operands: same signedness
compares natively (value-preserving usual conversions); signed `l` against
unsigned `r` is `l < 0 || (H)l < (H)r`; unsigned `l` against signed `r` is
`r >= 0 && (H)l < (H)r`, where `H` is the wider type made unsigned. -/
def lower_than (l r : CInt) : Bool :=
  if l.sgn = r.sgn then
    decide (l.v < r.v)
  else if l.sgn then
    let H := highest_unsigned_type_w l.w r.w
    decide (l.v < 0) || decide (toUnsigned H l.v < toUnsigned H r.v)
  else
    let H := highest_unsigned_type_w l.w r.w
    decide (0 ≤ r.v) && decide (toUnsigned H l.v < toUnsigned H r.v)

/-- `higher_than` of `minmax.h`: simply reverses the left-right logic of
`lower_than`. -/
def higher_than (l r : CInt) : Bool := lower_than r l

/-- Decidable range check: the value fits its declared (width, signedness). -/
def inRangeB (x : CInt) : Bool :=
  decide (0 < x.w) &&
    (if x.sgn then
      decide (-((2 : Int) ^ (bits x.w - 1)) ≤ x.v) && decide (x.v < (2 : Int) ^ (bits x.w - 1))
    else
      decide (0 ≤ x.v) && decide (x.v < (2 : Int) ^ bits x.w))

/-- Result of `find_lowest`: a plain typed value, or a
`signed_in_unsigned_value` (an unsigned bit pattern of byte width `w` plus the
was-originally-signed flag). -/
inductive FLRes where
  | plain (x : CInt)
  | tagged (w : Nat) (value : Int) (s : Bool)
deriving DecidableEq

/-- C++ integer promotion on a (byte width, signedness) type: types narrower
than `int` promote to `int` (width 4, signed). -/
def promoteT (t : Nat × Bool) : Nat × Bool :=
  if t.1 < 4 then (4, true) else t

/-- C++ usual arithmetic conversions on two (byte width, signedness) types
(the common type of a conditional expression with distinct operand types):
after promotion, same signedness keeps it and takes the larger width; with
mixed signedness the unsigned type wins when at least as wide, otherwise the
wider signed type wins. -/
def commonT (a b : Nat × Bool) : Nat × Bool :=
  let pa := promoteT a
  let pb := promoteT b
  if pa.2 = pb.2 then (max pa.1 pb.1, pa.2)
  else if pa.2 then
    if pa.1 ≤ pb.1 then (pb.1, false) else (pa.1, true)
  else
    if pb.1 ≤ pa.1 then (pa.1, false) else (pb.1, true)

/-- C++ conversion of a value to the type `t`. -/
def convertVal (t : Nat × Bool) (v : Int) : Int :=
  if t.2 then toSigned t.1 v else toUnsigned t.1 v

/-- One step of `find_lowest` (`minmax.h`, lines 123-159): combine the head
argument `l` with the already-reduced tail result.  `none` models a
`static_assert` failure in a taken branch (the call does not compile), and is
propagated.  When the tail result is tagged, `l` is compared against the
re-materialized original value if the flag is set (`right.getOriginal()`),
otherwise against the raw unsigned value; the chosen value goes through the
conditional operator's common type (which the code asserts to be unsigned) and
the originally-signed flag of the chosen side is propagated.  When the tail
result is plain and signedness differs, the chosen value is wrapped into a
fresh tag; otherwise the chosen value is forwarded (converted to the common
type only when the two types differ). -/
def flStep (less : CInt → CInt → Bool) (l : CInt) : Option FLRes → Option FLRes
  | none => none
  | some (FLRes.tagged w value s) =>
      let isLower := if s then less l ⟨w, true, toSigned w value⟩
                     else less l ⟨w, false, value⟩
      let ct := commonT (l.w, l.sgn) (w, false)
      if ct.2 then none
      else
        some (FLRes.tagged ct.1
          (if isLower then toUnsigned ct.1 l.v else toUnsigned ct.1 value)
          (if isLower then l.sgn else s))
  | some (FLRes.plain rt) =>
      let isLower := less l rt
      if l.sgn = rt.sgn then
        if l.w = rt.w then
          some (FLRes.plain ⟨l.w, l.sgn, if isLower then l.v else rt.v⟩)
        else
          let ct := commonT (l.w, l.sgn) (rt.w, rt.sgn)
          some (FLRes.plain ⟨ct.1, ct.2,
            if isLower then convertVal ct l.v else convertVal ct rt.v⟩)
      else
        let ct := commonT (l.w, l.sgn) (rt.w, rt.sgn)
        if ct.2 then none
        else
          some (FLRes.tagged ct.1
            (if isLower then toUnsigned ct.1 l.v else toUnsigned ct.1 rt.v)
            (if isLower then l.sgn else rt.sgn))

/-- `find_lowest` of `minmax.h`: a single value is returned as-is; otherwise
the tail is reduced first and combined with the head by `flStep`. -/
def find_lowest (less : CInt → CInt → Bool) (l : CInt) : List CInt → Option FLRes
  | [] => some (FLRes.plain l)
  | r :: rs => flStep less l (find_lowest less r rs)

/-- Fuel-indexed variant of `find_lowest`; the outer `none` means the fuel ran
out before the single-element base case was reached. -/
def find_lowest_fuel (less : CInt → CInt → Bool) :
    Nat → CInt → List CInt → Option (Option FLRes)
  | 0, _, _ => none
  | _ + 1, l, [] => some (some (FLRes.plain l))
  | n + 1, l, r :: rs => Option.map (flStep less l) (find_lowest_fuel less n r rs)

/-- `min` of `minmax.h`: run `find_lowest` with `lower_than`; if the result is
a `signed_in_unsigned_value`, return its raw `.value` member (an unsigned
value of the wrapper's width), otherwise return the plain result. -/
def cppMin (l : CInt) (rs : List CInt) : Option CInt :=
  match find_lowest lower_than l rs with
  | none => none
  | some (FLRes.plain x) => some x
  | some (FLRes.tagged w v _) => some ⟨w, false, v⟩

/-- `max` of `minmax.h`: same as `min` but with the `higher_than` functor. -/
def cppMax (l : CInt) (rs : List CInt) : Option CInt :=
  match find_lowest higher_than l rs with
  | none => none
  | some (FLRes.plain x) => some x
  | some (FLRes.tagged w v _) => some ⟨w, false, v⟩

/-- A C++ `int` literal. -/
def i32 (v : Int) : CInt := ⟨4, true, v⟩
/-- A C++ `unsigned` literal. -/
def u32 (v : Int) : CInt := ⟨4, false, v⟩
/-- A C++ `long long` literal. -/
def i64 (v : Int) : CInt := ⟨8, true, v⟩
/-- A C++ `unsigned long long` / `size_t` literal. -/
def u64 (v : Int) : CInt := ⟨8, false, v⟩

/-- The true mathematical minimum of a non-empty list, folded the same way
`find_lowest` folds its arguments (head against minimum of the tail).  This is
the specification's notion of "true mathematical minimum". -/
def mathMin (l : Int) : List Int → Int
  | [] => l
  | r :: rs => min l (mathMin r rs)

/-- The true mathematical maximum of a non-empty list (specification side). -/
def mathMax (l : Int) : List Int → Int
  | [] => l
  | r :: rs => max l (mathMax r rs)

/-!
Identical-type argument lists.  When every argument has the same type the
reduction never leaves the plain branch and every step forwards a reference to
one of the original arguments; the returned reference is therefore identified
by the *index* of the argument it aliases.  `selIdx` computes that index,
mirroring `find_lowest`: the tail is reduced to a candidate index, and the
head (index 0) is kept only when it compares strictly lower than the
candidate's value.
-/

/-- Index (into `l :: rs`) of the argument whose reference `find_lowest`
returns when all arguments have the same type, for comparison functor
`bless`. -/
def selIdx (bless : Int → Int → Bool) : Int → List Int → Nat
  | _, [] => 0
  | l, r :: rs =>
      let j := selIdx bless r rs
      if bless l ((r :: rs).getD j 0) then 0 else j + 1

/-- `lower_than` instantiated at two identically-typed `int` operands. -/
def intLt (a b : Int) : Bool := lower_than (i32 a) (i32 b)

/-- `higher_than` instantiated at two identically-typed `int` operands. -/
def intGt (a b : Int) : Bool := higher_than (i32 a) (i32 b)

/-- Index of the argument aliased by `min`'s returned reference when all
arguments are identically-typed. -/
def selIdxMin (l : Int) (rs : List Int) : Nat := selIdx intLt l rs

/-- Index of the argument aliased by `max`'s returned reference when all
arguments are identically-typed. -/
def selIdxMax (l : Int) (rs : List Int) : Nat := selIdx intGt l rs

/-- Specification-side deterministic tie-break: the position of the *last*
occurrence of `m` in the list (0 when absent). -/
def lastPos (m : Int) : List Int → Nat
  | [] => 0
  | _ :: as => if m ∈ as then lastPos m as + 1 else 0

/-!  The demonstration driver `minmax.cpp`.  Its loop body is
`++min(a, b, c)`: select the minimum of the three `int` variables (identical
types, so the returned reference aliases one of them), pre-increment it
through the reference, and report the incremented value. -/

/-- One loop iteration of `main` (`minmax.cpp`, line 25): increment the
variable selected by `min(a, b, c)` through the returned reference, and
report the new value. -/
def drvStep : Int × Int × Int → (Int × Int × Int) × Int
  | (a, b, c) =>
    match selIdxMin a [b, c] with
    | 0 => ((a + 1, b, c), a + 1)
    | 1 => ((a, b + 1, c), b + 1)
    | _ => ((a, b, c + 1), c + 1)

/-- The driver's loop: `n` iterations, collecting the reported values. -/
def drvLoop : Nat → Int × Int × Int → List Int
  | 0, _ => []
  | n + 1, s =>
      let r := drvStep s
      r.2 :: drvLoop n r.1

/-- `main` of `minmax.cpp` on already-parsed integer arguments: with exactly
three arguments it runs ten loop iterations and succeeds (`EXIT_SUCCESS`,
returning the reported values); any other argument count fails
(`EXIT_FAILURE`, modelled as `none`). -/
def cppMain : List Int → Option (List Int)
  | [a, b, c] => some (drvLoop 10 (a, b, c))
  | _ => none

/-!  Embedding validation: the repository's own `static_assert` unit tests,
re-evaluated on the embedding. -/

example : higher_than (i32 0) (u32 7) = false := by decide
example : higher_than (u32 7) (i32 0) = true := by decide
example : higher_than (u32 7) (i32 (-2)) = true := by decide
example : higher_than (i32 (-2)) (u32 7) = false := by decide

example : cppMax (i32 0) [i32 1] = some (i32 1) := by decide
example : cppMax (i32 0) [i32 1, i32 2, i32 3, i32 4, i32 5] = some (i32 5) := by decide
example : cppMax (u32 0) [i32 (-1)] = some (u32 0) := by decide
example : cppMax (i32 (-2)) [u32 0, u32 7] = some (u32 7) := by decide
example : cppMax (u32 7) [u32 0, i32 (-2)] = some (u32 7) := by decide
example : cppMax (i32 (-2147483648)) [u32 0, i32 7] = some (u32 7) := by decide
example : cppMax (u32 1) [i32 (-1), u32 4294967295] = some (u32 4294967295) := by decide
example : cppMax (i32 (-1)) [i32 2147483647, i32 (-3), u32 2, i32 (-7), u32 7, u32 2, u32 0] =
    some (u32 2147483647) := by decide
example : cppMax (u64 18446744073709551615) [i32 0, i32 7, i32 (-2147483648)] =
    some (u64 18446744073709551615) := by decide
example : cppMax (u64 42) [i32 (-100)] = some (u64 42) := by decide

example : cppMin (i32 0) [i32 1] = some (i32 0) := by decide
example : cppMin (u32 0) [i32 (-1)] = some (u32 4294967295) := by decide
example : cppMin (u32 0) [i32 (-2)] = some (u32 4294967294) := by decide
example : cppMin (u32 2) [i32 0, u32 7] = some (u32 0) := by decide
example : cppMin (i32 0) [i32 (-2), i32 1, i32 2, i32 3, i32 (-2), i32 4, i32 (-2), i32 5,
    i32 (-1), i32 (-2), i32 (-3), i32 1, i32 2, i32 20] = some (i32 (-3)) := by decide
example : cppMin (i32 (-1)) [i32 2147483647, i32 (-3), u32 2, i32 (-7), u32 7, u32 2, u32 0] =
    some (u32 4294967289) := by decide
example : cppMin (u32 1) [i32 (-7), u32 4294967295] = some (u32 4294967289) := by decide
example : cppMin (u64 18446744073709551615) [i32 0, i32 7, i32 (-2147483648)] =
    some (u64 18446744071562067968) := by decide
example : cppMin (u64 18446744073709551615) [i32 0, i32 7, i64 (-9223372036854775808)] =
    some (u64 9223372036854775808) := by decide
example : cppMin (u64 18446744073709551615) [i32 0, i32 7, i64 9223372036854775807] =
    some (u64 0) := by decide

/-! Helper lemmas about the modular conversions. -/

/-- A value already in `[0, 2^(8*n))` is unchanged by conversion to the
unsigned type of width `n`. -/
theorem toUnsigned_eq_self {n : Nat} {x : Int}
    (h0 : 0 ≤ x) (h1 : x < (2 : Int) ^ bits n) : toUnsigned n x = x :=
  Int.emod_eq_of_lt h0 h1

theorem two_pow_mono {a b : Nat} (h : a ≤ b) : (2 : Int) ^ a ≤ (2 : Int) ^ b :=
  pow_le_pow_right₀ (by norm_num) h

/-- The width chosen by `highest_unsigned_type` dominates both operand
widths. -/
theorem highest_unsigned_type_w_spec (lw rw : Nat) :
    lw ≤ highest_unsigned_type_w lw rw ∧ rw ≤ highest_unsigned_type_w lw rw := by
  unfold highest_unsigned_type_w
  split <;> omega

/-- C2: `lower_than` decides the true mathematical strict order.  For any two
in-range integral operands of any widths and signednesses, `lower_than l r`
returns `true` exactly when the mathematical value of `l` is strictly less
than the mathematical value of `r`: operands of equal signedness are compared
natively, and in the mixed cases the negative-sign shortcut plus the
comparison of both operands widened to the unsigned counterpart of the wider
type realize the mathematical order. -/
theorem lower_than_iff_lt (l r : CInt)
    (hl : inRangeB l = true) (hr : inRangeB r = true) :
    lower_than l r = true ↔ l.v < r.v := by
  obtain ⟨lw, lsgn, lv⟩ := l
  obtain ⟨rw, rsgn, rv⟩ := r
  cases lsgn <;> cases rsgn <;>
    simp only [inRangeB, Bool.and_eq_true, decide_eq_true_eq, Bool.if_false_left,
      Bool.if_true_left, if_true, if_false, Bool.false_eq_true, Bool.true_eq_false,
      ite_true, ite_false] at hl hr
  · -- both unsigned: native comparison
    simp [lower_than]
  · -- l unsigned, r signed: r >= 0 && (H)l < (H)r
    obtain ⟨hlw, hl0, hl1⟩ := hl
    obtain ⟨hrw, hr0, hr1⟩ := hr
    have hmax := highest_unsigned_type_w_spec lw rw
    simp only [lower_than, Bool.false_eq_true, if_false, if_true,
      Bool.and_eq_true, decide_eq_true_eq]
    by_cases hneg : rv < 0
    · constructor
      · rintro ⟨h0, _⟩
        omega
      · intro h
        omega
    · push_neg at hneg
      have hlu : toUnsigned (highest_unsigned_type_w lw rw) lv = lv :=
        toUnsigned_eq_self hl0
          (lt_of_lt_of_le hl1 (two_pow_mono (by unfold bits; omega)))
      have hru : toUnsigned (highest_unsigned_type_w lw rw) rv = rv := by
        refine toUnsigned_eq_self hneg (lt_of_lt_of_le hr1 ?_)
        exact two_pow_mono (a := bits rw - 1) (by unfold bits; omega)
      rw [hlu, hru]
      constructor
      · rintro ⟨_, h⟩
        exact h
      · intro h
        exact ⟨hneg, h⟩
  · -- l signed, r unsigned: l < 0 || (H)l < (H)r
    obtain ⟨hlw, hl0, hl1⟩ := hl
    obtain ⟨hrw, hr0, hr1⟩ := hr
    have hmax := highest_unsigned_type_w_spec lw rw
    simp only [lower_than, Bool.true_eq_false, if_false, if_true,
      Bool.or_eq_true, decide_eq_true_eq]
    by_cases hneg : lv < 0
    · constructor
      · intro _
        omega
      · intro _
        exact Or.inl hneg
    · push_neg at hneg
      have hlu : toUnsigned (highest_unsigned_type_w lw rw) lv = lv := by
        refine toUnsigned_eq_self hneg (lt_of_lt_of_le hl1 ?_)
        exact two_pow_mono (a := bits lw - 1) (by unfold bits; omega)
      have hru : toUnsigned (highest_unsigned_type_w lw rw) rv = rv :=
        toUnsigned_eq_self hr0
          (lt_of_lt_of_le hr1 (two_pow_mono (by unfold bits; omega)))
      rw [hlu, hru]
      constructor
      · rintro (h | h)
        · omega
        · exact h
      · intro h
        exact Or.inr h
  · -- both signed: native comparison
    simp [lower_than]

/-- Witness for C2 at `l = (int)(-1)`, `r = 1u`. -/
theorem lower_than_iff_lt_witness :
    lower_than (i32 (-1)) (u32 1) = true ↔ (-1 : Int) < 1 :=
  lower_than_iff_lt (i32 (-1)) (u32 1) (by decide) (by decide)

/-- C6: `higher_than` is exactly the argument-swapped mirror of `lower_than`;
it contains no comparison logic of its own. -/
theorem higher_than_eq_swapped_lower_than :
    ∀ l r : CInt, higher_than l r = lower_than r l :=
  fun _ _ => rfl

/-- C9: the recursive reduction terminates, reaching the single-element base
case after exactly one recursive call per remaining argument: fuel equal to
the argument count (tail length + 1) always suffices, for any comparison
functor — in particular for the `lower_than` and `higher_than` instantiations
used by `min` and `max`. -/
theorem find_lowest_terminates :
    ∀ (less : CInt → CInt → Bool) (l : CInt) (rs : List CInt),
      find_lowest_fuel less (rs.length + 1) l rs = some (find_lowest less l rs) := by
  intro less l rs
  induction rs generalizing l with
  | nil => rfl
  | cons r rs ih =>
      simp [find_lowest_fuel, find_lowest, ih]

/-- C1 fails on the code: on the argument list `5, 1ull, -1, 1u` the value
`min` returns is `5` (as `unsigned long long`), although the true mathematical
minimum of the list is `-1`.  The `-1`, first normalized to the 32-bit pattern
`0xFFFFFFFF` with the originally-signed flag set, is zero-extended (not
sign-extended) to 64 bits when it meets the wider `1ull`, so the later
comparison against `5` sees `4294967295` instead of `-1`. -/
theorem min_not_mathematical_minimum :
    cppMin (i32 5) [u64 1, i32 (-1), u32 1] = some (u64 5) ∧
    find_lowest lower_than (i32 5) [u64 1, i32 (-1), u32 1] =
      some (FLRes.tagged 8 5 true) ∧
    mathMin 5 [1, -1, 1] = -1 ∧
    (5 : Int) ≠ -1 := by decide

/-- C7 fails on the code: the same multiset of arguments in two different
orders yields two different `min` values.  `min(5, 1ull, -1, 1u)` returns `5`
while `min(-1, 5, 1ull, 1u)` returns `18446744073709551615` (the correct
64-bit pattern of `-1`); even reinterpreted through the originally-signed
flag the two results are the distinct values `5` and `-1`. -/
theorem min_not_permutation_invariant :
    cppMin (i32 5) [u64 1, i32 (-1), u32 1] = some (u64 5) ∧
    cppMin (i32 (-1)) [i32 5, u64 1, u32 1] = some (u64 18446744073709551615) ∧
    (i32 5 :: [u64 1, i32 (-1), u32 1]).Perm (i32 (-1) :: [i32 5, u64 1, u32 1]) ∧
    (5 : Int) ≠ 18446744073709551615 ∧
    toSigned 8 5 = 5 ∧ toSigned 8 18446744073709551615 = -1 := by decide

/-- C3 fails on the code: `min(0u, -2)` produces the wrapped result
`signed_in_unsigned_value(4294967294, is_signed == true)`, and `min` hands the
caller the raw unsigned member `4294967294` of type `unsigned` — not the
signed reinterpretation `-2` that the claim requires for a result flagged as
originally signed. -/
theorem min_returns_raw_unsigned_counterexample :
    find_lowest lower_than (u32 0) [i32 (-2)] =
      some (FLRes.tagged 4 4294967294 true) ∧
    cppMin (u32 0) [i32 (-2)] = some (u32 4294967294) ∧
    u32 4294967294 ≠ i32 (-2) := by decide

/-- C3 amended: whenever the top-level result of the reduction is a
`signed_in_unsigned_value` — whether or not its originally-signed flag is set
— `min` and `max` return its raw unsigned `.value` member as the unsigned
common type; no reinterpretation back to signed ever occurs. -/
theorem min_max_return_raw_unsigned :
    ∀ (l : CInt) (rs : List CInt) (w : Nat) (v : Int) (s : Bool),
      (find_lowest lower_than l rs = some (FLRes.tagged w v s) →
        cppMin l rs = some ⟨w, false, v⟩) ∧
      (find_lowest higher_than l rs = some (FLRes.tagged w v s) →
        cppMax l rs = some ⟨w, false, v⟩) := by
  intro l rs w v s
  constructor
  · intro h
    simp [cppMin, h]
  · intro h
    simp [cppMax, h]

/-- Witness for the amended C3 at `min(0u, -2)` (flag set) and `max(0u, -2)`
(flag clear): both return the raw unsigned member. -/
theorem min_max_return_raw_unsigned_witness :
    cppMin (u32 0) [i32 (-2)] = some ⟨4, false, 4294967294⟩ ∧
    cppMax (u32 0) [i32 (-2)] = some ⟨4, false, 0⟩ :=
  ⟨(min_max_return_raw_unsigned (u32 0) [i32 (-2)] 4 4294967294 true).1 (by decide),
   (min_max_return_raw_unsigned (u32 0) [i32 (-2)] 4 0 false).2 (by decide)⟩

/-! Helper lemmas about the identical-type selection index. -/

/-- `lower_than` on two identically-typed `int` operands is the native
mathematical strict order. -/
theorem intLt_eq (a b : Int) : intLt a b = decide (a < b) := rfl

/-- `higher_than` on two identically-typed `int` operands is the reversed
native strict order. -/
theorem intGt_eq (a b : Int) : intGt a b = decide (b < a) := rfl

/-- The selection index always points into the argument list. -/
theorem selIdx_lt_length (bless : Int → Int → Bool) :
    ∀ (l : Int) (rs : List Int), selIdx bless l rs < (l :: rs).length := by
  intro l rs
  induction rs generalizing l with
  | nil => simp [selIdx]
  | cons r rs ih =>
      simp only [selIdx, List.length_cons]
      split
      · simp
      · have := ih r
        simp only [List.length_cons] at this
        omega

/-- Every element of the list is at least the mathematical minimum. -/
theorem mathMin_le_getD :
    ∀ (l : Int) (rs : List Int) (k : Nat), k < (l :: rs).length →
      mathMin l rs ≤ (l :: rs).getD k 0 := by
  intro l rs
  induction rs generalizing l with
  | nil =>
      intro k hk
      simp only [List.length_cons, List.length_nil] at hk
      have : k = 0 := by omega
      subst this
      simp [mathMin]
  | cons r rs ih =>
      intro k hk
      cases k with
      | zero => simp [mathMin]
      | succ k =>
          have hk' : k < (r :: rs).length := by
            simpa using hk
          calc mathMin l (r :: rs) ≤ mathMin r rs := min_le_right _ _
            _ ≤ (r :: rs).getD k 0 := ih r k hk'

/-- Every element of the list is at most the mathematical maximum. -/
theorem getD_le_mathMax :
    ∀ (l : Int) (rs : List Int) (k : Nat), k < (l :: rs).length →
      (l :: rs).getD k 0 ≤ mathMax l rs := by
  intro l rs
  induction rs generalizing l with
  | nil =>
      intro k hk
      simp only [List.length_cons, List.length_nil] at hk
      have : k = 0 := by omega
      subst this
      simp [mathMax]
  | cons r rs ih =>
      intro k hk
      cases k with
      | zero => simp [mathMax]
      | succ k =>
          have hk' : k < (r :: rs).length := by
            simpa using hk
          calc (l :: r :: rs).getD (k + 1) 0 = (r :: rs).getD k 0 := rfl
            _ ≤ mathMax r rs := ih r k hk'
            _ ≤ mathMax l (r :: rs) := le_max_right _ _

/-- The argument `min` selects holds the mathematical minimum of the list. -/
theorem selIdxMin_getD :
    ∀ (l : Int) (rs : List Int),
      (l :: rs).getD (selIdxMin l rs) 0 = mathMin l rs := by
  intro l rs
  induction rs generalizing l with
  | nil => simp [selIdxMin, selIdx, mathMin]
  | cons r rs ih =>
      have ih' := ih r
      simp only [selIdxMin, selIdx, intLt_eq] at *
      split
      · next h =>
          simp only [decide_eq_true_eq] at h
          rw [ih'] at h
          simp [mathMin, min_eq_left (le_of_lt h)]
      · next h =>
          simp only [decide_eq_true_eq, not_lt] at h
          rw [ih'] at h
          simp only [List.getD_cons_succ, ih', mathMin]
          exact (min_eq_right h).symm

/-- The argument `max` selects holds the mathematical maximum of the list. -/
theorem selIdxMax_getD :
    ∀ (l : Int) (rs : List Int),
      (l :: rs).getD (selIdxMax l rs) 0 = mathMax l rs := by
  intro l rs
  induction rs generalizing l with
  | nil => simp [selIdxMax, selIdx, mathMax]
  | cons r rs ih =>
      have ih' := ih r
      simp only [selIdxMax, selIdx, intGt_eq] at *
      split
      · next h =>
          simp only [decide_eq_true_eq] at h
          rw [ih'] at h
          simp [mathMax, max_eq_left (le_of_lt h)]
      · next h =>
          simp only [decide_eq_true_eq, not_lt] at h
          rw [ih'] at h
          simp only [List.getD_cons_succ, ih', mathMax]
          exact (max_eq_right h).symm

/-- Every argument after the one `min` selects is strictly greater than the
minimum: the selected occurrence is the last one. -/
theorem selIdxMin_after :
    ∀ (l : Int) (rs : List Int) (k : Nat),
      selIdxMin l rs < k → k < (l :: rs).length →
      mathMin l rs < (l :: rs).getD k 0 := by
  intro l rs
  induction rs generalizing l with
  | nil =>
      intro k h1 h2
      simp only [List.length_cons, List.length_nil] at h2
      omega
  | cons r rs ih =>
      intro k h1 h2
      have hcand := selIdxMin_getD r rs
      simp only [selIdxMin] at hcand
      simp only [selIdxMin, selIdx, intLt_eq] at h1
      rcases hsplit : decide (l < (r :: rs).getD (selIdx intLt r rs) 0) with _ | _
      · -- head not strictly lower: tail candidate kept
        simp only [hsplit, Bool.false_eq_true, if_false] at h1
        simp only [decide_eq_false_iff_not, not_lt] at hsplit
        cases k with
        | zero => omega
        | succ k =>
            have h2' : k < (r :: rs).length := by simpa using h2
            have hlt : selIdxMin r rs < k := by
              simp only [selIdxMin]
              omega
            have := ih r k hlt h2'
            have hminEq : mathMin l (r :: rs) = mathMin r rs := by
              rw [hcand] at hsplit
              simp [mathMin, min_eq_right hsplit]
            rw [hminEq]
            simpa using this
      · -- head strictly lower: index 0 selected, everything after exceeds it
        simp only [hsplit, if_true] at h1
        simp only [decide_eq_true_eq] at hsplit
        rw [hcand] at hsplit
        have hminEq : mathMin l (r :: rs) = l := by
          simp [mathMin, min_eq_left (le_of_lt hsplit)]
        rw [hminEq]
        cases k with
        | zero => omega
        | succ k =>
            have h2' : k < (r :: rs).length := by simpa using h2
            calc l < mathMin r rs := hsplit
              _ ≤ (r :: rs).getD k 0 := mathMin_le_getD r rs k h2'

/-- Every argument after the one `max` selects is strictly below the maximum:
the selected occurrence is the last one. -/
theorem selIdxMax_after :
    ∀ (l : Int) (rs : List Int) (k : Nat),
      selIdxMax l rs < k → k < (l :: rs).length →
      (l :: rs).getD k 0 < mathMax l rs := by
  intro l rs
  induction rs generalizing l with
  | nil =>
      intro k h1 h2
      simp only [List.length_cons, List.length_nil] at h2
      omega
  | cons r rs ih =>
      intro k h1 h2
      have hcand := selIdxMax_getD r rs
      simp only [selIdxMax] at hcand
      simp only [selIdxMax, selIdx, intGt_eq] at h1
      rcases hsplit : decide ((r :: rs).getD (selIdx intGt r rs) 0 < l) with _ | _
      · simp only [hsplit, Bool.false_eq_true, if_false] at h1
        simp only [decide_eq_false_iff_not, not_lt] at hsplit
        cases k with
        | zero => omega
        | succ k =>
            have h2' : k < (r :: rs).length := by simpa using h2
            have hlt : selIdxMax r rs < k := by
              simp only [selIdxMax]
              omega
            have := ih r k hlt h2'
            have hmaxEq : mathMax l (r :: rs) = mathMax r rs := by
              rw [hcand] at hsplit
              simp [mathMax, max_eq_right hsplit]
            rw [hmaxEq]
            simpa using this
      · simp only [hsplit, if_true] at h1
        simp only [decide_eq_true_eq] at hsplit
        rw [hcand] at hsplit
        have hmaxEq : mathMax l (r :: rs) = l := by
          simp [mathMax, max_eq_left (le_of_lt hsplit)]
        rw [hmaxEq]
        cases k with
        | zero => omega
        | succ k =>
            have h2' : k < (r :: rs).length := by simpa using h2
            calc (r :: rs).getD k 0 ≤ mathMax r rs := getD_le_mathMax r rs k h2'
              _ < l := hsplit

/-- Any position holding `m` after which `m` never occurs again is the last
occurrence of `m`. -/
theorem lastPos_eq_of (m : Int) :
    ∀ (args : List Int) (j : Nat), j < args.length → args.getD j 0 = m →
      (∀ k, j < k → k < args.length → args.getD k 0 ≠ m) →
      lastPos m args = j := by
  intro args
  induction args with
  | nil =>
      intro j hj _ _
      exact absurd hj (Nat.not_lt_zero j)
  | cons a as ih =>
      intro j hj hv hafter
      by_cases hm : m ∈ as
      · obtain ⟨i, hi, hgi⟩ := List.getElem_of_mem hm
        cases j with
        | zero =>
            exfalso
            apply hafter (i + 1) (by omega) (by simpa using hi)
            rw [List.getD_cons_succ, List.getD_eq_getElem _ _ hi]
            exact hgi
        | succ j' =>
            have hj' : j' < as.length := by simpa using hj
            have hv' : as.getD j' 0 = m := by simpa using hv
            have hafter' : ∀ k, j' < k → k < as.length → as.getD k 0 ≠ m := by
              intro k hk1 hk2
              have := hafter (k + 1) (by omega) (by simpa using hk2)
              simpa using this
            simp [lastPos, hm, ih j' hj' hv' hafter']
      · cases j with
        | zero => simp [lastPos, hm]
        | succ j' =>
            exfalso
            apply hm
            have hj' : j' < as.length := by simpa using hj
            have hv' : as.getD j' 0 = m := by simpa using hv
            rw [List.getD_eq_getElem _ _ hj'] at hv'
            exact hv' ▸ List.getElem_mem hj'

/-- Writing through the selected index changes that cell. -/
theorem getD_set_self :
    ∀ (xs : List Int) (j : Nat) (x : Int), j < xs.length →
      (xs.set j x).getD j 0 = x := by
  intro xs
  induction xs with
  | nil =>
      intro j x h
      exact absurd h (Nat.not_lt_zero j)
  | cons a as ih =>
      intro j x h
      cases j with
      | zero => rfl
      | succ j =>
          have h' : j < as.length := by simpa using h
          simpa using ih j x h'

/-- Writing through the selected index leaves every other cell unchanged. -/
theorem getD_set_ne :
    ∀ (xs : List Int) (i j : Nat) (x : Int), i ≠ j →
      (xs.set j x).getD i 0 = xs.getD i 0 := by
  intro xs
  induction xs with
  | nil => intro i j x _; rfl
  | cons a as ih =>
      intro i j x hne
      cases j with
      | zero =>
          cases i with
          | zero => exact absurd rfl hne
          | succ i => rfl
      | succ j =>
          cases i with
          | zero => rfl
          | succ i =>
              simpa using ih i j x (by omega)

theorem i32_w (x : Int) : (i32 x).w = 4 := rfl

theorem i32_sgn (x : Int) : (i32 x).sgn = true := rfl

theorem i32_v (x : Int) : (i32 x).v = x := rfl

theorem i32_mk (x : Int) : CInt.mk 4 true x = i32 x := rfl

/-- On an identically-typed (plain `int`) argument list, `find_lowest` stays
in the plain branch throughout and returns (a reference to) exactly the
argument at the selection index: the embedding-level reduction and the index
model coincide. -/
theorem find_lowest_homogeneous (less : CInt → CInt → Bool)
    (bless : Int → Int → Bool)
    (hb : ∀ a b : Int, less (i32 a) (i32 b) = bless a b) :
    ∀ (l : Int) (rs : List Int),
      find_lowest less (i32 l) (rs.map i32) =
        some (FLRes.plain (i32 ((l :: rs).getD (selIdx bless l rs) 0))) := by
  intro l rs
  induction rs generalizing l with
  | nil => simp [find_lowest, selIdx]
  | cons r rs ih =>
      simp only [List.map_cons, find_lowest, ih r]
      have hstep : flStep less (i32 l)
          (some (FLRes.plain (i32 ((r :: rs).getD (selIdx bless r rs) 0)))) =
          some (FLRes.plain (i32
            (if bless l ((r :: rs).getD (selIdx bless r rs) 0) = true then l
             else (r :: rs).getD (selIdx bless r rs) 0))) := by
        generalize (r :: rs).getD (selIdx bless r rs) 0 = c
        simp [flStep, hb, i32_w, i32_sgn, i32_v, i32_mk]
      rw [hstep]
      rcases hcase : bless l ((r :: rs).getD (selIdx bless r rs) 0) with _ | _
      · have hidx : selIdx bless l (r :: rs) = selIdx bless r rs + 1 := by
          show (if bless l ((r :: rs).getD (selIdx bless r rs) 0) = true then 0
            else selIdx bless r rs + 1) = selIdx bless r rs + 1
          rw [hcase]
          simp
        rw [hidx, List.getD_cons_succ]
        simp
      · have hidx : selIdx bless l (r :: rs) = 0 := by
          show (if bless l ((r :: rs).getD (selIdx bless r rs) 0) = true then 0
            else selIdx bless r rs + 1) = 0
          rw [hcase]
          simp
        rw [hidx, List.getD_cons_zero]
        simp

/-- The driver's loop reports one value per iteration. -/
theorem drvLoop_length : ∀ (n : Nat) (s : Int × Int × Int), (drvLoop n s).length = n := by
  intro n
  induction n with
  | zero => intro s; rfl
  | succ n ih =>
      intro s
      simp [drvLoop, ih]

/-- Each driver iteration increments the variable currently holding the
minimum of the three, and reports the incremented value. -/
theorem drvStep_reports_min_succ :
    ∀ a b c : Int, (drvStep (a, b, c)).2 = mathMin a [b, c] + 1 := by
  intro a b c
  have h1 := selIdx_lt_length intLt a [b, c]
  have h2 := selIdxMin_getD a [b, c]
  simp only [List.length_cons, List.length_nil] at h1
  rcases hj : selIdxMin a [b, c] with _ | _ | _ | n
  · rw [hj] at h2
    simp only [List.getD_cons_zero] at h2
    simp only [drvStep, hj]
    rw [← h2]
  · rw [hj] at h2
    simp only [List.getD_cons_succ, List.getD_cons_zero] at h2
    simp only [drvStep, hj]
    rw [← h2]
  · rw [hj] at h2
    simp only [List.getD_cons_succ, List.getD_cons_zero] at h2
    simp only [drvStep, hj]
    rw [← h2]
  · exfalso
    simp only [selIdxMin] at hj
    omega

/-- `main` fails on any argument count other than three. -/
theorem cppMain_arity :
    ∀ args : List Int, args.length ≠ 3 → cppMain args = none := by
  intro args h
  match args with
  | [] => rfl
  | [_] => rfl
  | [_, _] => rfl
  | [_, _, _] => exact absurd rfl h
  | _ :: _ :: _ :: _ :: _ => rfl

/-- C5 fails on the code: the driver's loop body is `++min(a, b, c)` — it
increments the *minimum*, not the maximum.  On the arguments `1 2 3` the ten
reported values are `2, 3, 3, 4, 4, 4, 5, 5, 5, 6`; a driver that incremented
and reported the maximum would report `4` first (`max{1,2,3} + 1`), not `2`
(`min{1,2,3} + 1`). -/
theorem driver_increments_minimum_counterexample :
    cppMain [1, 2, 3] = some [2, 3, 3, 4, 4, 4, 5, 5, 5, 6] ∧
    ([2, 3, 3, 4, 4, 4, 5, 5, 5, 6] : List Int).getD 0 0 = mathMin 1 [2, 3] + 1 ∧
    ([2, 3, 3, 4, 4, 4, 5, 5, 5, 6] : List Int).getD 0 0 ≠ mathMax 1 [2, 3] + 1 := by
  decide

/-- C5 amended: given exactly three integer arguments the driver runs ten
iterations, each incrementing the variable currently holding the *minimum* of
the three (through the reference `min` returns) and reporting the incremented
value; any other argument count exits with the failure status. -/
theorem driver_behaviour :
    (∀ a b c : Int, (drvStep (a, b, c)).2 = mathMin a [b, c] + 1 ∧
      cppMain [a, b, c] = some (drvLoop 10 (a, b, c)) ∧
      (drvLoop 10 (a, b, c)).length = 10) ∧
    (∀ args : List Int, args.length ≠ 3 → cppMain args = none) :=
  ⟨fun a b c => ⟨drvStep_reports_min_succ a b c, rfl, drvLoop_length 10 (a, b, c)⟩,
   cppMain_arity⟩

/-- Witness for the amended C5: the first iteration on `1 2 3` reports
`min + 1 = 2`, and a two-argument invocation fails. -/
theorem driver_behaviour_witness :
    (drvStep (1, 2, 3)).2 = mathMin 1 [2, 3] + 1 ∧ cppMain [1, 2] = none :=
  ⟨(driver_behaviour.1 1 2 3).1, driver_behaviour.2 [1, 2] (by decide)⟩

/-- C8: tie-breaking is deterministic and consistent.  The argument selected
by `min` (respectively `max`) over an identically-typed list is a function of
the argument values alone: it is always exactly the last position at which the
extremal value occurs, so two calls with identical inputs always select the
same argument. -/
theorem tie_break_deterministic :
    ∀ (l : Int) (rs : List Int),
      selIdxMin l rs = lastPos (mathMin l rs) (l :: rs) ∧
      selIdxMax l rs = lastPos (mathMax l rs) (l :: rs) := by
  intro l rs
  constructor
  · exact (lastPos_eq_of (mathMin l rs) (l :: rs) (selIdxMin l rs)
      (selIdx_lt_length intLt l rs) (selIdxMin_getD l rs)
      (fun k h1 h2 => ne_of_gt (selIdxMin_after l rs k h1 h2))).symm
  · exact (lastPos_eq_of (mathMax l rs) (l :: rs) (selIdxMax l rs)
      (selIdx_lt_length intGt l rs) (selIdxMax_getD l rs)
      (fun k h1 h2 => ne_of_lt (selIdxMax_after l rs k h1 h2))).symm

/-- C10: when several identically-typed arguments hold the extremal value,
`min`/`max` select the *last*-encountered one: the selected argument holds the
extremum, and every later argument is strictly worse (strictly above the
minimum, respectively strictly below the maximum) — because the strict
comparison keeps the head only when it strictly precedes the tail's
candidate. -/
theorem extremum_selects_last_encountered :
    ∀ (l : Int) (rs : List Int),
      ((l :: rs).getD (selIdxMin l rs) 0 = mathMin l rs ∧
        (∀ k, selIdxMin l rs < k → k < (l :: rs).length →
          mathMin l rs < (l :: rs).getD k 0)) ∧
      ((l :: rs).getD (selIdxMax l rs) 0 = mathMax l rs ∧
        (∀ k, selIdxMax l rs < k → k < (l :: rs).length →
          (l :: rs).getD k 0 < mathMax l rs)) :=
  fun l rs =>
    ⟨⟨selIdxMin_getD l rs, fun k h1 h2 => selIdxMin_after l rs k h1 h2⟩,
     ⟨selIdxMax_getD l rs, fun k h1 h2 => selIdxMax_after l rs k h1 h2⟩⟩

/-- Witness for C10 on `min(1, 1, 2)` and `max(1, 2, 2)`: with a duplicated
extremum the selected index is `1` (respectively `2`) — the last occurrence,
not the first — and the element after the selected minimum is strictly
greater. -/
theorem extremum_selects_last_encountered_witness :
    ([1, 1, 2] : List Int).getD (selIdxMin 1 [1, 2]) 0 = mathMin 1 [1, 2] ∧
    selIdxMin 1 [1, 2] = 1 ∧
    mathMin 1 [1, 2] < ([1, 1, 2] : List Int).getD 2 0 ∧
    ([1, 2, 2] : List Int).getD (selIdxMax 1 [2, 2]) 0 = mathMax 1 [2, 2] ∧
    selIdxMax 1 [2, 2] = 2 :=
  ⟨(extremum_selects_last_encountered 1 [1, 2]).1.1,
   by decide,
   (extremum_selects_last_encountered 1 [1, 2]).1.2 2 (by decide) (by decide),
   (extremum_selects_last_encountered 1 [2, 2]).2.1,
   by decide⟩

/-- C4: on an identically-typed argument list the reference returned by
`min`/`max` aliases exactly the argument at the selection index: the
embedding-level `find_lowest` returns that argument (first two conjuncts);
its value is the selected extremum; and writing through the returned
reference updates that argument's cell and no other. -/
theorem reference_aliasing_frame :
    ∀ (l : Int) (rs : List Int) (x : Int) (i : Nat),
      find_lowest lower_than (i32 l) (rs.map i32) =
        some (FLRes.plain (i32 ((l :: rs).getD (selIdxMin l rs) 0))) ∧
      find_lowest higher_than (i32 l) (rs.map i32) =
        some (FLRes.plain (i32 ((l :: rs).getD (selIdxMax l rs) 0))) ∧
      (l :: rs).getD (selIdxMin l rs) 0 = mathMin l rs ∧
      (l :: rs).getD (selIdxMax l rs) 0 = mathMax l rs ∧
      selIdxMin l rs < (l :: rs).length ∧
      ((l :: rs).set (selIdxMin l rs) x).getD (selIdxMin l rs) 0 = x ∧
      ((l :: rs).set (selIdxMax l rs) x).getD (selIdxMax l rs) 0 = x ∧
      (i ≠ selIdxMin l rs →
        ((l :: rs).set (selIdxMin l rs) x).getD i 0 = (l :: rs).getD i 0) ∧
      (i ≠ selIdxMax l rs →
        ((l :: rs).set (selIdxMax l rs) x).getD i 0 = (l :: rs).getD i 0) :=
  fun l rs x i =>
    ⟨find_lowest_homogeneous lower_than intLt (fun _ _ => rfl) l rs,
     find_lowest_homogeneous higher_than intGt (fun _ _ => rfl) l rs,
     selIdxMin_getD l rs,
     selIdxMax_getD l rs,
     selIdx_lt_length intLt l rs,
     getD_set_self (l :: rs) (selIdxMin l rs) x (selIdx_lt_length intLt l rs),
     getD_set_self (l :: rs) (selIdxMax l rs) x (selIdx_lt_length intGt l rs),
     fun h => getD_set_ne (l :: rs) i (selIdxMin l rs) x h,
     fun h => getD_set_ne (l :: rs) i (selIdxMax l rs) x h⟩

/-- Witness for C4 on `min(5, 3, 3)` with write value `9` and observer index
`0`: the selected cell (index 2, the last minimum) is written, index 0 is
untouched. -/
theorem reference_aliasing_frame_witness :
    ([5, 3, 3] : List Int).set (selIdxMin 5 [3, 3]) 9 = [5, 3, 9] ∧
    (([5, 3, 3] : List Int).set (selIdxMin 5 [3, 3]) 9).getD 0 0 =
      ([5, 3, 3] : List Int).getD 0 0 :=
  ⟨by decide,
   (reference_aliasing_frame 5 [3, 3] 9 0).2.2.2.2.2.2.2.1 (by decide)⟩
